import Mathlib

/-!
Verification of the hspell gimatria module (`gimatria.c`): conversion between
integers and Hebrew-numeral (gematria) strings, and validation of canonical
numerals.  The module consists of the decoder `gim2int`, the encoder
`int2gim`, and the validator `hspell_is_canonic_gimatria`, which round-trips
a candidate string through decoder and encoder and compares.

Strings are modelled as lists of `GChar`.  The provided copy of the source
does not preserve its non-ASCII bytes (every Hebrew letter appears as a
replacement character), so the identities of the Hebrew letters in the
letter-value switch, the digit tables, and the final-form substitution are
modelled from the spec's Letter-Value Table; all control flow, the ASCII
punctuation characters (the apostrophe separator and the double-quote mark),
and the shapes of the tables are taken directly from the source.
-/

namespace Gimatria

/-- A character of a candidate numeral string.  The Hebrew letters follow the
letter-value table of the module; `sep` is the apostrophe separator, `quote`
is the double-quote mark, and `other b` stands for any further byte (such as
a Latin letter), which the decoder ignores.
Modelled from the spec: the letter identities (which source byte is alef,
which is bet, ...) follow the spec's Letter-Value Table, because the
source's non-ASCII bytes are not preserved in the provided copy. -/
inductive GChar : Type
  | alef | bet | gimel | dalet | he | vav | zayin | het | tet
  | yod | kaf | lamed | mem | nun | samekh | ayin | pe | tsadi
  | qof | resh | shin | tav
  | finalKaf | finalMem | finalNun | finalPe | finalTsadi
  | sep
  | quote
  | other (b : Nat)
deriving DecidableEq

/-- The value a single character adds to the decoder's accumulator: the
switch in `gim2int` (gimatria.c lines 28-49).  Final forms score the same as
the regular forms (the paired case labels in the source); the quote mark and
every unrecognized character add nothing.
Modelled from the spec: the letter identities follow the spec's
Letter-Value Table (values 1..9, 10..90 by tens, 100..400 by hundreds, and
the five final forms paired with their regular forms). -/
def gimVal : GChar → Nat
  | .alef => 1
  | .bet => 2
  | .gimel => 3
  | .dalet => 4
  | .he => 5
  | .vav => 6
  | .zayin => 7
  | .het => 8
  | .tet => 9
  | .yod => 10
  | .kaf => 20
  | .finalKaf => 20
  | .lamed => 30
  | .mem => 40
  | .finalMem => 40
  | .nun => 50
  | .finalNun => 50
  | .samekh => 60
  | .ayin => 70
  | .pe => 80
  | .finalPe => 80
  | .tsadi => 90
  | .finalTsadi => 90
  | .qof => 100
  | .resh => 200
  | .shin => 300
  | .tav => 400
  | _ => 0

/-- The decoder's scanning loop (`gim2int`, gimatria.c lines 15-53): on a
separator, multiply the accumulator by 1000 only when at least one character
follows (`if(w[1]) n*=1000`); on any other character, add its letter value
(zero for ignored characters such as the quote mark). -/
def gim2intAux : Nat → List GChar → Nat
  | acc, [] => acc
  | acc, c :: r =>
    if c = GChar.sep then gim2intAux (if r = [] then acc else acc * 1000) r
    else gim2intAux (acc + gimVal c) r

/-- The decoder `gim2int` (gimatria.c lines 11-56): scan the string left to
right starting from accumulator 0. -/
def gim2int (w : List GChar) : Nat := gim2intAux 0 w

/-- The encoder's digit table `digits[3][9]` (gimatria.c lines 108-112), in
the source's storage order: the strings are appended to the buffer before
the buffer is reversed, so the multi-letter hundreds entries are stored
least-significant-letter-last (e.g. the 500 entry is qof-then-tav, which
reads tav-qof = 400+100 after the reversal).  Rows out of range give [].
Modelled from the spec: the letter identities follow the spec's table
(row 0 = units 1..9, row 1 = tens 10..90, row 2 = hundreds 100..400 with
composite entries 500..900 built from 400s plus a smaller hundred). -/
def digitsTab : Nat → Nat → List GChar
  | 0, 0 => [.alef]
  | 0, 1 => [.bet]
  | 0, 2 => [.gimel]
  | 0, 3 => [.dalet]
  | 0, 4 => [.he]
  | 0, 5 => [.vav]
  | 0, 6 => [.zayin]
  | 0, 7 => [.het]
  | 0, 8 => [.tet]
  | 1, 0 => [.yod]
  | 1, 1 => [.kaf]
  | 1, 2 => [.lamed]
  | 1, 3 => [.mem]
  | 1, 4 => [.nun]
  | 1, 5 => [.samekh]
  | 1, 6 => [.ayin]
  | 1, 7 => [.pe]
  | 1, 8 => [.tsadi]
  | 2, 0 => [.qof]
  | 2, 1 => [.resh]
  | 2, 2 => [.shin]
  | 2, 3 => [.tav]
  | 2, 4 => [.qof, .tav]
  | 2, 5 => [.resh, .tav]
  | 2, 6 => [.shin, .tav]
  | 2, 7 => [.tav, .tav]
  | 2, 8 => [.qof, .tav, .tav]
  | _, _ => []

/-- The encoder's `special[2]` table (gimatria.c line 113) for the values 15
and 16, in the source's storage order (reversed reading order, like
`digitsTab`): after the buffer reversal the entries read tet-vav (9+6=15)
and tet-zayin (9+7=16).
Modelled from the spec: the idiom letters follow the spec's description of
the 15/16 substitution. -/
def specialTab : Nat → List GChar
  | 0 => [.vav, .tet]
  | 1 => [.zayin, .tet]
  | _ => []

/-- One fuel-indexed unfolding of the encoder's while loop (`int2gim`,
gimatria.c lines 119-131).  Each step mirrors one iteration of the C loop:
when the rotating position index `i` reaches 3 a separator is emitted and
`i` resets to 0 (same `n`); at position 0 with `n % 100` equal to 15 or 16
the special two-letter idiom is emitted, `n` is divided by 100 and `i` jumps
to 2; otherwise the current decimal digit's letters (if the digit is
nonzero) are emitted, `n` is divided by 10 and `i` advances.  The fuel
argument only forces termination (the C loop runs until `n` reaches 0);
`gimLoop_eq` below recovers the exact loop equation. -/
def gimLoopF : Nat → Nat → Nat → List GChar
  | 0, _, _ => []
  | fuel + 1, n, i =>
    if n = 0 then []
    else if i = 3 then GChar.sep :: gimLoopF fuel n 0
    else if i = 0 ∧ (n % 100 = 15 ∨ n % 100 = 16) then
      specialTab (n % 100 - 15) ++ gimLoopF fuel (n / 100) 2
    else
      (if n % 10 = 0 then [] else digitsTab i (n % 10 - 1)) ++
        gimLoopF fuel (n / 10) (i + 1)

/-- The encoder's while loop (`int2gim`, gimatria.c lines 119-131), run to
completion: the list of characters appended to the buffer, in buffer order
(least significant first, before the reversal).  `2 * n + 2` steps of fuel
always suffice. -/
def gimLoop (n i : Nat) : List GChar := gimLoopF (2 * n + 2) n i

/-- Final-form substitution table (`int2gim`, gimatria.c lines 142-151): the
five letters with final forms map to their final form; everything else is
unchanged.
Modelled from the spec: the five substituted letters are kaf, mem, nun, pe
and tsadi, per the spec's final-letter rule. -/
def subFinal : GChar → GChar
  | .kaf => .finalKaf
  | .mem => .finalMem
  | .nun => .finalNun
  | .pe => .finalPe
  | .tsadi => .finalTsadi
  | c => c

/-- Apply the final-form substitution to the last character of the (already
reversed) buffer, as `int2gim` does at gimatria.c lines 142-151; an empty
buffer is unchanged. -/
def applyFinal (l : List GChar) : List GChar :=
  match l.getLast? with
  | none => l
  | some c => l.dropLast ++ [subFinal c]

/-- The encoder's punctuation placement (`int2gim`, gimatria.c lines
153-172), applied to the reversed, final-substituted buffer: a single
character gets a trailing separator; otherwise if the second-to-last
character is a separator and the last is not, a trailing separator is
appended; otherwise if the last character is not a separator, a quote mark
is inserted before it; otherwise (last character is a separator) the buffer
is left unchanged. -/
def punct (l : List GChar) : List GChar :=
  match l.reverse with
  | [] => l
  | [_] => l ++ [GChar.sep]
  | c :: d :: _ =>
    if d = GChar.sep ∧ c ≠ GChar.sep then l ++ [GChar.sep]
    else if c ≠ GChar.sep then l.dropLast ++ [GChar.quote, c]
    else l

/-- The encoder `int2gim` (gimatria.c lines 105-174): run the emission loop
from position 0, reverse the buffer, substitute a final form for the last
letter, and place the punctuation.  The C parameter is `unsigned int`, so a
negative C argument reaches this function reduced modulo 2^32. -/
def int2gim (n : Nat) : List GChar :=
  punct (applyFinal (gimLoop n 0).reverse)

/-- The validator `hspell_is_canonic_gimatria` (gimatria.c lines 179-195):
return 0 outright if the string contains neither a quote mark nor a
separator; otherwise decode, re-encode, and return the decoded value
exactly when the re-encoding reproduces the input. -/
def hspell_is_canonic_gimatria (w : List GChar) : Nat :=
  if w.any (fun c => decide (c = GChar.quote ∨ c = GChar.sep)) then
    if w = int2gim (gim2int w) then gim2int w else 0
  else 0

/-- A character is a Hebrew letter exactly when it carries a nonzero letter
value (punctuation and foreign bytes carry none). -/
def isHebLetter (c : GChar) : Bool := decide (gimVal c ≠ 0)

/-- Sum of the letter values of a list (the decoder's result on a list with
no effective separator). -/
def sumVal (l : List GChar) : Nat := (l.map gimVal).sum

/-- Decoder semantics in which every separator multiplies (the behavior of
`gim2int` on strings whose separators all have a successor character). -/
def decEff : Nat → List GChar → Nat
  | acc, [] => acc
  | acc, c :: r =>
    if c = GChar.sep then decEff (acc * 1000) r
    else decEff (acc + gimVal c) r

/-- An avoided (sacred-name) adjacent letter pair: yod followed by he, or
yod followed by vav. -/
def badPair (a b : GChar) : Prop :=
  a = GChar.yod ∧ (b = GChar.he ∨ b = GChar.vav)

instance instDecidableBadPair (a b : GChar) : Decidable (badPair a b) := by
  unfold badPair; exact inferInstance

/-- Adjacent-pair test used to state the sacred-pair invariant: `true` for
every adjacent pair except yod followed by he and yod followed by vav. -/
def okPair (a b : GChar) : Bool := decide (¬ badPair a b)

/-- No adjacent yod-he and no adjacent yod-vav anywhere in the list. -/
def noBadPairs : List GChar → Bool
  | [] => true
  | [_] => true
  | a :: b :: r => okPair a b && noBadPairs (b :: r)

end Gimatria

namespace Gimatria

/-! Fuel irrelevance and the loop equation. -/

theorem gimLoopF_succ (f n i : Nat) :
    gimLoopF (f + 1) n i =
      if n = 0 then []
      else if i = 3 then GChar.sep :: gimLoopF f n 0
      else if i = 0 ∧ (n % 100 = 15 ∨ n % 100 = 16) then
        specialTab (n % 100 - 15) ++ gimLoopF f (n / 100) 2
      else
        (if n % 10 = 0 then [] else digitsTab i (n % 10 - 1)) ++
          gimLoopF f (n / 10) (i + 1) := rfl

theorem gimLoopF_irrel :
    ∀ f₁ f₂ n i, 2 * n + min (i / 3) 1 < f₁ → 2 * n + min (i / 3) 1 < f₂ →
      gimLoopF f₁ n i = gimLoopF f₂ n i := by
  intro f₁
  induction f₁ with
  | zero => intro f₂ n i h₁ _; omega
  | succ f ih =>
    intro f₂ n i h₁ h₂
    cases f₂ with
    | zero => omega
    | succ g =>
      rw [gimLoopF_succ, gimLoopF_succ]
      by_cases hn : n = 0
      · simp only [if_pos hn]
      · simp only [if_neg hn]
        by_cases hi : i = 3
        · simp only [if_pos hi]
          have hrec : gimLoopF f n 0 = gimLoopF g n 0 :=
            ih g n 0 (by omega) (by omega)
          rw [hrec]
        · simp only [if_neg hi]
          by_cases hsp : i = 0 ∧ (n % 100 = 15 ∨ n % 100 = 16)
          · simp only [if_pos hsp]
            have hrec : gimLoopF f (n / 100) 2 = gimLoopF g (n / 100) 2 :=
              ih g (n / 100) 2 (by omega) (by omega)
            rw [hrec]
          · simp only [if_neg hsp]
            have hrec : gimLoopF f (n / 10) (i + 1) = gimLoopF g (n / 10) (i + 1) :=
              ih g (n / 10) (i + 1) (by omega) (by omega)
            rw [hrec]

/-- The defining equation of the encoder's loop, matching one iteration of
the C `while` loop in `int2gim`. -/
theorem gimLoop_eq (n i : Nat) :
    gimLoop n i =
      if n = 0 then []
      else if i = 3 then GChar.sep :: gimLoop n 0
      else if i = 0 ∧ (n % 100 = 15 ∨ n % 100 = 16) then
        specialTab (n % 100 - 15) ++ gimLoop (n / 100) 2
      else
        (if n % 10 = 0 then [] else digitsTab i (n % 10 - 1)) ++
          gimLoop (n / 10) (i + 1) := by
  show gimLoopF (2 * n + 2) n i = _
  rw [show 2 * n + 2 = (2 * n + 1) + 1 by omega, gimLoopF_succ]
  by_cases hn : n = 0
  · simp only [if_pos hn]
  · simp only [if_neg hn]
    by_cases hi : i = 3
    · simp only [if_pos hi]
      have hrec : gimLoopF (2 * n + 1) n 0 = gimLoop n 0 :=
        gimLoopF_irrel (2 * n + 1) (2 * n + 2) n 0 (by omega) (by omega)
      rw [hrec]
    · simp only [if_neg hi]
      by_cases hsp : i = 0 ∧ (n % 100 = 15 ∨ n % 100 = 16)
      · simp only [if_pos hsp]
        have hrec : gimLoopF (2 * n + 1) (n / 100) 2 = gimLoop (n / 100) 2 :=
          gimLoopF_irrel (2 * n + 1) (2 * (n / 100) + 2) (n / 100) 2 (by omega) (by omega)
        rw [hrec]
      · simp only [if_neg hsp]
        have hrec : gimLoopF (2 * n + 1) (n / 10) (i + 1) = gimLoop (n / 10) (i + 1) :=
          gimLoopF_irrel (2 * n + 1) (2 * (n / 10) + 2) (n / 10) (i + 1) (by omega) (by omega)
        rw [hrec]

/-! Basic decoder lemmas. -/

theorem gim2intAux_cons (acc : Nat) (c : GChar) (r : List GChar) :
    gim2intAux acc (c :: r) =
      if c = GChar.sep then gim2intAux (if r = [] then acc else acc * 1000) r
      else gim2intAux (acc + gimVal c) r := rfl

theorem decEff_cons (acc : Nat) (c : GChar) (r : List GChar) :
    decEff acc (c :: r) =
      if c = GChar.sep then decEff (acc * 1000) r
      else decEff (acc + gimVal c) r := rfl

theorem sumVal_cons (c : GChar) (r : List GChar) :
    sumVal (c :: r) = gimVal c + sumVal r := by
  simp [sumVal]

theorem sumVal_reverse (l : List GChar) : sumVal l.reverse = sumVal l := by
  simp [sumVal, List.map_reverse, List.sum_reverse]

/-- On a list that does not end in a separator, the decoder loop behaves as
if every separator multiplied. -/
theorem gim2intAux_eq_decEff (l : List GChar) :
    ∀ acc, l.getLast? ≠ some GChar.sep → gim2intAux acc l = decEff acc l := by
  induction l with
  | nil => intro acc _; rfl
  | cons c r ih =>
    intro acc h
    cases r with
    | nil =>
      have hc : c ≠ GChar.sep := by
        intro e; exact h (by simp [e])
      rw [gim2intAux_cons, decEff_cons, if_neg hc, if_neg hc]
      rfl
    | cons d r' =>
      have h' : (d :: r').getLast? ≠ some GChar.sep := by
        rw [List.getLast?_cons_cons] at h; exact h
      rw [gim2intAux_cons, decEff_cons]
      by_cases hc : c = GChar.sep
      · rw [if_pos hc, if_pos hc, if_neg (by simp : (d :: r') ≠ [])]
        exact ih _ h'
      · rw [if_neg hc, if_neg hc]
        exact ih _ h'

/-- Appending one trailing separator: the trailing separator itself is a
no-op, and it makes every separator of the prefix effective. -/
theorem gim2intAux_concat_sep (l : List GChar) :
    ∀ acc, gim2intAux acc (l ++ [GChar.sep]) = decEff acc l := by
  induction l with
  | nil =>
    intro acc
    rw [List.nil_append, gim2intAux_cons, if_pos rfl, if_pos rfl]
    rfl
  | cons c r ih =>
    intro acc
    rw [List.cons_append, gim2intAux_cons, decEff_cons]
    by_cases hc : c = GChar.sep
    · rw [if_pos hc, if_pos hc, if_neg (by simp : r ++ [GChar.sep] ≠ [])]
      exact ih _
    · rw [if_neg hc, if_neg hc]
      exact ih _

theorem decEff_append (u v : List GChar) :
    ∀ acc, decEff acc (u ++ v) = decEff (decEff acc u) v := by
  induction u with
  | nil => intro acc; rfl
  | cons c r ih =>
    intro acc
    rw [List.cons_append, decEff_cons, decEff_cons]
    by_cases hc : c = GChar.sep
    · rw [if_pos hc, if_pos hc]; exact ih _
    · rw [if_neg hc, if_neg hc]; exact ih _

/-- On a separator-free list, the effective decoder just adds the letter
values. -/
theorem decEff_no_sep (l : List GChar) :
    ∀ acc, GChar.sep ∉ l → decEff acc l = acc + sumVal l := by
  induction l with
  | nil => intro acc _; simp [decEff, sumVal]
  | cons c r ih =>
    intro acc h
    have hc : c ≠ GChar.sep := fun e => h (by simp [e])
    have hr : GChar.sep ∉ r := fun e => h (List.mem_cons_of_mem _ e)
    rw [decEff_cons, if_neg hc, ih _ hr, sumVal_cons]
    omega

/-- On a list whose only separator (if any) is its final character, the
decoder loop just adds the letter values (a separator scores zero). -/
theorem gim2intAux_inner_no_sep (l : List GChar) :
    ∀ acc, GChar.sep ∉ l.dropLast → gim2intAux acc l = acc + sumVal l := by
  induction l with
  | nil => intro acc _; simp [gim2intAux, sumVal]
  | cons c r ih =>
    intro acc h
    cases r with
    | nil =>
      rw [gim2intAux_cons]
      by_cases hc : c = GChar.sep
      · rw [if_pos hc, if_pos rfl]
        show acc = acc + sumVal [c]
        rw [hc]; simp [sumVal, gimVal]
      · rw [if_neg hc]
        show acc + gimVal c = acc + sumVal [c]
        simp [sumVal]
    | cons d r' =>
      have hc : c ≠ GChar.sep := by
        intro e
        exact absurd (show GChar.sep ∈ (c :: d :: r').dropLast by
          rw [show (c :: d :: r').dropLast = c :: (d :: r').dropLast from rfl]
          exact e ▸ List.mem_cons_self _ _) h
      have h' : GChar.sep ∉ (d :: r').dropLast := by
        intro e
        exact h (by
          rw [show (c :: d :: r').dropLast = c :: (d :: r').dropLast from rfl]
          exact List.mem_cons_of_mem _ e)
      rw [gim2intAux_cons, if_neg hc, ih _ h']
      simp only [sumVal_cons]
      omega

/-- A separator-free prefix contributes the sum of its letter values to the
accumulator, whatever follows. -/
theorem gim2intAux_append_no_sep (S : List GChar) :
    ∀ acc suffix, GChar.sep ∉ S →
      gim2intAux acc (S ++ suffix) = gim2intAux (acc + sumVal S) suffix := by
  induction S with
  | nil => intro acc suffix _; simp [sumVal]
  | cons c r ih =>
    intro acc suffix h
    have hc : c ≠ GChar.sep := fun e => h (by simp [e])
    have hr : GChar.sep ∉ r := fun e => h (List.mem_cons_of_mem _ e)
    rw [List.cons_append, gim2intAux_cons, if_neg hc, ih _ _ hr, sumVal_cons,
      Nat.add_assoc]

theorem decEff_single (x : Nat) (c : GChar) (h : c ≠ GChar.sep) :
    decEff x [c] = x + gimVal c := by
  rw [decEff_cons, if_neg h]; rfl

theorem decEff_sep_single (x : Nat) : decEff x [GChar.sep] = x * 1000 := rfl

/-! Finite facts about the encoder's tables. -/

theorem digitsTab_sum :
    ∀ i < 3, ∀ d < 9,
      sumVal (digitsTab i d) = (d + 1) * 10 ^ i ∧ GChar.sep ∉ digitsTab i d := by
  decide

theorem specialTab_sum :
    ∀ k < 2, sumVal (specialTab k) = 15 + k ∧ GChar.sep ∉ specialTab k := by
  decide

theorem digitsTab_head :
    ∀ i < 3, ∀ d < 9,
      digitsTab i d ≠ [] ∧ (digitsTab i d).head? ≠ some GChar.sep := by
  decide

theorem specialTab_head :
    ∀ k < 2, specialTab k ≠ [] ∧ (specialTab k).head? ≠ some GChar.sep := by
  decide

/-- Value contributed by one iteration's digit emission, read back by the
effective decoder (zero digit emits nothing and contributes nothing). -/
theorem decEff_chunk (n i x : Nat) (hi : i ≤ 2) :
    decEff x ((if n % 10 = 0 then [] else digitsTab i (n % 10 - 1)).reverse) =
      x + n % 10 * 10 ^ i := by
  by_cases h : n % 10 = 0
  · rw [if_pos h, h]
    simp [decEff]
  · rw [if_neg h]
    have hd : n % 10 - 1 < 9 := by omega
    obtain ⟨hs, hns⟩ := digitsTab_sum i (by omega) (n % 10 - 1) hd
    rw [decEff_no_sep _ _ (by rw [List.mem_reverse]; exact hns), sumVal_reverse, hs]
    have hd1 : n % 10 - 1 + 1 = n % 10 := by omega
    rw [hd1]

/-- Main value lemma: reading the reversed loop output with the effective
decoder recovers `n * 10 ^ i` on top of the accumulator scaled by 1000 for
each emitted separator. -/
theorem decEff_gimLoop (n : Nat) :
    ∀ i, i ≤ 2 →
      ∃ e, ∀ acc, decEff acc ((gimLoop n i).reverse) = acc * 1000 ^ e + n * 10 ^ i := by
  induction n using Nat.strong_induction_on with
  | _ n ih =>
    intro i hi
    by_cases hn : n = 0
    · refine ⟨0, fun acc => ?_⟩
      rw [gimLoop_eq, if_pos hn, hn]
      simp [decEff]
    · have hi3 : i ≠ 3 := by omega
      by_cases hsp : i = 0 ∧ (n % 100 = 15 ∨ n % 100 = 16)
      · have hL : gimLoop n i = specialTab (n % 100 - 15) ++ gimLoop (n / 100) 2 := by
          rw [gimLoop_eq, if_neg hn, if_neg hi3, if_pos hsp]
        obtain ⟨e, he⟩ := ih (n / 100) (Nat.div_lt_self (by omega) (by omega)) 2 (by omega)
        refine ⟨e, fun acc => ?_⟩
        obtain ⟨hi0, h1516⟩ := hsp
        have hk : n % 100 - 15 < 2 := by omega
        obtain ⟨hs, hns⟩ := specialTab_sum (n % 100 - 15) hk
        rw [hL, List.reverse_append, decEff_append, he,
          decEff_no_sep _ _ (by rw [List.mem_reverse]; exact hns), sumVal_reverse, hs, hi0]
        rw [show (10:ℕ) ^ 2 = 100 from by norm_num, show (10:ℕ) ^ 0 = 1 from by norm_num,
          Nat.add_assoc]
        exact congrArg (fun t => acc * 1000 ^ e + t) (by omega)
      · have hL : gimLoop n i =
            (if n % 10 = 0 then [] else digitsTab i (n % 10 - 1)) ++ gimLoop (n / 10) (i + 1) := by
          rw [gimLoop_eq, if_neg hn, if_neg hi3, if_neg hsp]
        by_cases hi1 : i ≤ 1
        · obtain ⟨e, he⟩ := ih (n / 10) (Nat.div_lt_self (by omega) (by omega)) (i + 1) (by omega)
          refine ⟨e, fun acc => ?_⟩
          rw [hL, List.reverse_append, decEff_append, he, decEff_chunk n i _ (by omega)]
          have hkey : n / 10 * 10 ^ (i + 1) + n % 10 * 10 ^ i = n * 10 ^ i := by
            have h1 : n / 10 * 10 + n % 10 = n := by omega
            calc n / 10 * 10 ^ (i + 1) + n % 10 * 10 ^ i
                = (n / 10 * 10 + n % 10) * 10 ^ i := by ring
              _ = n * 10 ^ i := by rw [h1]
          rw [Nat.add_assoc, hkey]
        · have hi2 : i = 2 := by omega
          subst hi2
          by_cases hm : n / 10 = 0
          · refine ⟨0, fun acc => ?_⟩
            have hL3 : gimLoop (n / 10) 3 = [] := by
              rw [gimLoop_eq, if_pos hm]
            rw [hL, hL3, List.append_nil, decEff_chunk n 2 _ (by omega)]
            have hsm : n % 10 = n := by omega
            rw [hsm]
            simp
          · obtain ⟨e, he⟩ := ih (n / 10) (Nat.div_lt_self (by omega) (by omega)) 0 (by omega)
            refine ⟨e + 1, fun acc => ?_⟩
            have hL3 : gimLoop (n / 10) 3 = GChar.sep :: gimLoop (n / 10) 0 := by
              rw [gimLoop_eq, if_neg hm]
              rfl
            rw [hL, hL3, List.reverse_append, List.reverse_cons, decEff_append,
              decEff_append, he, decEff_sep_single, decEff_chunk n 2 _ (by omega)]
            have h0 : (10:ℕ) ^ 0 = 1 := by norm_num
            rw [h0]
            have h1 : n / 10 * 10 + n % 10 = n := by omega
            calc (acc * 1000 ^ e + n / 10 * 1) * 1000 + n % 10 * 10 ^ 2
                = acc * 1000 ^ (e + 1) + (n / 10 * 10 + n % 10) * 10 ^ 2 := by ring
              _ = acc * 1000 ^ (e + 1) + n * 10 ^ 2 := by rw [h1]

/-- If the group of decimal digits at positions `i..2` of `n` is nonzero,
the loop output starts with a letter (never with a separator). -/
theorem gimLoop_head_letter (n : Nat) :
    ∀ i, i ≤ 2 → n % 10 ^ (3 - i) ≠ 0 →
      ∃ c, (gimLoop n i).head? = some c ∧ c ≠ GChar.sep := by
  induction n using Nat.strong_induction_on with
  | _ n ih =>
    intro i hi hmod
    have hn : n ≠ 0 := by
      intro e; subst e; simp at hmod
    have hi3 : i ≠ 3 := by omega
    by_cases hsp : i = 0 ∧ (n % 100 = 15 ∨ n % 100 = 16)
    · have hL : gimLoop n i = specialTab (n % 100 - 15) ++ gimLoop (n / 100) 2 := by
        rw [gimLoop_eq, if_neg hn, if_neg hi3, if_pos hsp]
      have hk : n % 100 - 15 < 2 := by
        rcases hsp.2 with h | h <;> omega
      obtain ⟨hne, hhd⟩ := specialTab_head _ hk
      cases hE : specialTab (n % 100 - 15) with
      | nil => exact absurd hE hne
      | cons a t =>
        refine ⟨a, ?_, ?_⟩
        · rw [hL, hE]; rfl
        · rw [hE] at hhd
          intro e
          exact hhd (by rw [e]; rfl)
    · have hL : gimLoop n i =
          (if n % 10 = 0 then [] else digitsTab i (n % 10 - 1)) ++ gimLoop (n / 10) (i + 1) := by
        rw [gimLoop_eq, if_neg hn, if_neg hi3, if_neg hsp]
      by_cases h10 : n % 10 = 0
      · have hi1 : i ≤ 1 := by
          by_contra hcon
          have hieq : i = 2 := by omega
          subst hieq
          rw [show (3:Nat) - 2 = 1 from rfl, pow_one] at hmod
          exact hmod h10
        have hmod' : (n / 10) % 10 ^ (3 - (i + 1)) ≠ 0 := by
          have e0 : (10:ℕ) ^ (3 - i) = 10 * 10 ^ (2 - i) := by
            rw [← pow_succ']
            congr 1
            omega
          have e1 : (n / 10) % 10 ^ (2 - i) = n % 10 ^ (3 - i) / 10 := by
            rw [e0, Nat.mod_mul_right_div_self]
          have e2 : n % 10 ^ (3 - i) % 10 = 0 := by
            rw [Nat.mod_mod_of_dvd _ (dvd_pow_self 10 (by omega))]
            exact h10
          have e3 : 3 - (i + 1) = 2 - i := by omega
          rw [e3, e1]
          generalize hA : n % 10 ^ (3 - i) = A at hmod e2
          omega
        obtain ⟨c, hc, hcs⟩ :=
          ih (n / 10) (Nat.div_lt_self (by omega) (by omega)) (i + 1) (by omega) hmod'
        refine ⟨c, ?_, hcs⟩
        rw [hL, if_pos h10, List.nil_append]
        exact hc
      · obtain ⟨hne, hhd⟩ := digitsTab_head i (by omega) (n % 10 - 1) (by omega)
        cases hE : digitsTab i (n % 10 - 1) with
        | nil => exact absurd hE hne
        | cons a t =>
          refine ⟨a, ?_, ?_⟩
          · rw [hL, if_neg h10, hE]; rfl
          · rw [hE] at hhd
            intro e
            exact hhd (by rw [e]; rfl)

/-! Facts about the final-form substitution. -/

theorem gimVal_subFinal (c : GChar) : gimVal (subFinal c) = gimVal c := by
  cases c <;> rfl

theorem subFinal_ne_sep (c : GChar) (h : c ≠ GChar.sep) : subFinal c ≠ GChar.sep := by
  cases c <;> first | exact h | decide

theorem subFinal_he_or_vav (c : GChar)
    (h : subFinal c = GChar.he ∨ subFinal c = GChar.vav) :
    c = GChar.he ∨ c = GChar.vav := by
  cases c <;> revert h <;> first | decide | (intro h; simp [subFinal] at h)

/-! Case equations for the punctuation step. -/

theorem punct_rev_nil (l : List GChar) (h : l.reverse = []) : punct l = l := by
  unfold punct
  rw [h]

theorem punct_rev_one (l : List GChar) (c : GChar) (h : l.reverse = [c]) :
    punct l = l ++ [GChar.sep] := by
  unfold punct
  rw [h]

theorem punct_rev_cons (l : List GChar) (c d : GChar) (r : List GChar)
    (h : l.reverse = c :: d :: r) :
    punct l =
      if d = GChar.sep ∧ c ≠ GChar.sep then l ++ [GChar.sep]
      else if c ≠ GChar.sep then l.dropLast ++ [GChar.quote, c]
      else l := by
  unfold punct
  rw [h]

/-- Core round-trip fact: for `n ≥ 1` not a multiple of 1000, decoding the
encoding recovers `n`, and the encoding always carries a quote mark or a
separator (so the validator's fast path does not reject it). -/
theorem roundtrip_core (n : Nat) (h1 : 1 ≤ n) (h3 : n % 1000 ≠ 0) :
    gim2int (int2gim n) = n ∧
      (int2gim n).any (fun c => decide (c = GChar.quote ∨ c = GChar.sep)) = true := by
  have hmod : n % 10 ^ (3 - 0) ≠ 0 := by
    rw [show (10:ℕ) ^ (3 - 0) = 1000 from by norm_num]
    exact h3
  obtain ⟨c, hc, hcs⟩ := gimLoop_head_letter n 0 (by omega) hmod
  obtain ⟨e, he⟩ := decEff_gimLoop n 0 (by omega)
  have hR : decEff 0 ((gimLoop n 0).reverse) = n := by
    rw [he 0]
    simp
  cases hL : gimLoop n 0 with
  | nil =>
    rw [hL] at hc
    simp at hc
  | cons c0 L' =>
    rw [hL] at hc
    have hc0 : c0 = c := by
      simp only [List.head?_cons, Option.some.injEq] at hc
      exact hc
    subst hc0
    rw [hL, List.reverse_cons, decEff_append, decEff_single _ _ hcs] at hR
    set b := subFinal c0 with hb
    have hbs : b ≠ GChar.sep := subFinal_ne_sep c0 hcs
    have hAF : applyFinal ((gimLoop n 0).reverse) = L'.reverse ++ [b] := by
      unfold applyFinal
      rw [hL, List.reverse_cons, List.getLast?_concat, List.dropLast_concat]
    have hIG : int2gim n = punct (L'.reverse ++ [b]) := by
      unfold int2gim
      rw [hAF]
    have hval : decEff 0 (L'.reverse ++ [b]) = n := by
      rw [decEff_append, decEff_single _ _ hbs, hb, gimVal_subFinal]
      exact hR
    have hrev2 : (L'.reverse ++ [b]).reverse = b :: L' := by
      rw [List.reverse_append, List.reverse_reverse]
      rfl
    cases L' with
    | nil =>
      have hone : punct (([] : List GChar).reverse ++ [b]) =
          (([] : List GChar).reverse ++ [b]) ++ [GChar.sep] :=
        punct_rev_one _ b (by rw [hrev2])
      rw [hIG, hone]
      constructor
      · show gim2intAux 0 _ = n
        rw [gim2intAux_concat_sep]
        exact hval
      · simp
    | cons d L'' =>
      have hpc := punct_rev_cons ((d :: L'').reverse ++ [b]) b d L'' (by rw [hrev2])
      by_cases hd : d = GChar.sep
      · rw [hIG, hpc, if_pos ⟨hd, hbs⟩]
        constructor
        · show gim2intAux 0 _ = n
          rw [gim2intAux_concat_sep]
          exact hval
        · simp
      · have hcond : ¬(d = GChar.sep ∧ b ≠ GChar.sep) := fun hcc => hd hcc.1
        rw [hIG, hpc, if_neg hcond, if_pos hbs, List.dropLast_concat]
        constructor
        · show gim2intAux 0 _ = n
          have hsplit : (d :: L'').reverse ++ [GChar.quote, b] =
              ((d :: L'').reverse ++ [GChar.quote]) ++ [b] := by simp
          rw [hsplit, gim2intAux_eq_decEff _ _ (by
              rw [List.getLast?_concat]
              simp [hbs]),
            decEff_append, decEff_append, decEff_single _ GChar.quote (by decide),
            decEff_single _ b hbs]
          have hq : gimVal GChar.quote = 0 := rfl
          rw [hq, Nat.add_zero]
          rw [decEff_append, decEff_single _ _ hbs] at hval
          exact hval
        · simp

/-! The sacred-pair invariant: machinery. -/

theorem noBadPairs_iff_chain (l : List GChar) :
    noBadPairs l = true ↔ List.Chain' (fun a b => ¬ badPair a b) l := by
  induction l with
  | nil => simp [noBadPairs, List.chain'_nil]
  | cons a t ih =>
    cases t with
    | nil => simp [noBadPairs, List.chain'_singleton]
    | cons x r =>
      rw [show noBadPairs (a :: x :: r) = (okPair a x && noBadPairs (x :: r)) from rfl,
        Bool.and_eq_true, List.chain'_cons, ih]
      constructor
      · rintro ⟨h1, h2⟩
        exact ⟨decide_eq_true_iff.mp h1, h2⟩
      · rintro ⟨h1, h2⟩
        exact ⟨decide_eq_true_iff.mpr h1, h2⟩

/-- Transfer: if the reading-order form of a list has no bad pair, the
buffer-order (pre-reversal) list satisfies the flipped chain relation. -/
theorem chainQ_of_noBadPairs_rev (l : List GChar)
    (h : noBadPairs l.reverse = true) :
    List.Chain' (fun x y => ¬ badPair y x) l := by
  have hch := (noBadPairs_iff_chain l.reverse).mp h
  exact List.chain'_reverse.mp hch

theorem digitsTab_noBad : ∀ i < 3, ∀ d < 9, noBadPairs (digitsTab i d).reverse = true := by
  decide

theorem specialTab_noBad : ∀ k < 2, noBadPairs (specialTab k).reverse = true := by
  decide

theorem digitsTab_last_he :
    ∀ i < 3, ∀ d < 9, (digitsTab i d).getLast? = some GChar.he → i = 0 ∧ d = 4 := by
  decide

theorem digitsTab_last_vav :
    ∀ i < 3, ∀ d < 9, (digitsTab i d).getLast? = some GChar.vav → i = 0 ∧ d = 5 := by
  decide

theorem specialTab_last :
    ∀ k < 2, (specialTab k).getLast? ≠ some GChar.he ∧
      (specialTab k).getLast? ≠ some GChar.vav := by
  decide

theorem digitsTab_head_yod :
    ∀ i < 3, ∀ d < 9, (digitsTab i d).head? = some GChar.yod → i = 1 ∧ d = 0 := by
  decide

theorem digitsTab_big : ∀ i d, 3 ≤ i → digitsTab i d = [] := by
  intro i d h
  rcases i with _ | _ | _ | i
  · omega
  · omega
  · omega
  · rfl

/-- The loop output starts with yod only when the position index is 1 (tens)
and the current tens digit is 1. -/
theorem gimLoop_head_yod (n : Nat) :
    ∀ i, 1 ≤ i → (gimLoop n i).head? = some GChar.yod → i = 1 ∧ n % 10 = 1 := by
  induction n using Nat.strong_induction_on with
  | _ n ih =>
    intro i hi hhd
    by_cases hn : n = 0
    · rw [gimLoop_eq, if_pos hn] at hhd
      simp at hhd
    · by_cases hi3 : i = 3
      · rw [gimLoop_eq, if_neg hn, if_pos hi3] at hhd
        simp at hhd
      · have hsp : ¬(i = 0 ∧ (n % 100 = 15 ∨ n % 100 = 16)) := fun hcc => by omega
        rw [gimLoop_eq, if_neg hn, if_neg hi3, if_neg hsp] at hhd
        by_cases h10 : n % 10 = 0
        · rw [if_pos h10, List.nil_append] at hhd
          obtain ⟨hh, _⟩ :=
            ih (n / 10) (Nat.div_lt_self (by omega) (by omega)) (i + 1) (by omega) hhd
          omega
        · rw [if_neg h10] at hhd
          by_cases hbig : 3 ≤ i
          · rw [digitsTab_big i _ hbig, List.nil_append] at hhd
            obtain ⟨hh, _⟩ :=
              ih (n / 10) (Nat.div_lt_self (by omega) (by omega)) (i + 1) (by omega) hhd
            omega
          · obtain ⟨hne, _⟩ := digitsTab_head i (by omega) (n % 10 - 1) (by omega)
            cases hE : digitsTab i (n % 10 - 1) with
            | nil => exact absurd hE hne
            | cons a t =>
              rw [hE] at hhd
              have ha : a = GChar.yod := by
                simp only [List.cons_append, List.head?_cons, Option.some.injEq] at hhd
                exact hhd
              obtain ⟨hi1, hd0⟩ :=
                digitsTab_head_yod i (by omega) (n % 10 - 1) (by omega)
                  (by rw [hE, ha]; rfl)
              exact ⟨hi1, by omega⟩

/-- No letter pair forbidden in reading order appears in the loop output:
in buffer order, yod is never immediately preceded by he or vav. -/
theorem chainQ_gimLoop (n : Nat) :
    ∀ i, i ≤ 2 → List.Chain' (fun x y => ¬ badPair y x) (gimLoop n i) := by
  induction n using Nat.strong_induction_on with
  | _ n ih =>
    intro i hi
    by_cases hn : n = 0
    · rw [gimLoop_eq, if_pos hn]
      exact List.chain'_nil
    · have hi3 : i ≠ 3 := by omega
      by_cases hsp : i = 0 ∧ (n % 100 = 15 ∨ n % 100 = 16)
      · rw [gimLoop_eq, if_neg hn, if_neg hi3, if_pos hsp, List.chain'_append]
        have hk : n % 100 - 15 < 2 := by rcases hsp.2 with h | h <;> omega
        refine ⟨chainQ_of_noBadPairs_rev _ (specialTab_noBad _ hk),
          ih (n / 100) (Nat.div_lt_self (by omega) (by omega)) 2 (by omega), ?_⟩
        intro x hx y hy hbad
        obtain ⟨hh, hv⟩ := specialTab_last _ hk
        rw [Option.mem_def] at hx
        rcases hbad.2 with hxe | hxe
        · rw [hxe] at hx
          exact hh hx
        · rw [hxe] at hx
          exact hv hx
      · rw [gimLoop_eq, if_neg hn, if_neg hi3, if_neg hsp, List.chain'_append]
        refine ⟨?_, ?_, ?_⟩
        · by_cases h10 : n % 10 = 0
          · rw [if_pos h10]
            exact List.chain'_nil
          · rw [if_neg h10]
            exact chainQ_of_noBadPairs_rev _ (digitsTab_noBad i (by omega) _ (by omega))
        · by_cases hi1 : i ≤ 1
          · exact ih (n / 10) (Nat.div_lt_self (by omega) (by omega)) (i + 1) (by omega)
          · have hieq : i = 2 := by omega
            subst hieq
            by_cases hm : n / 10 = 0
            · rw [gimLoop_eq, if_pos hm]
              exact List.chain'_nil
            · have hL3 : gimLoop (n / 10) 3 = GChar.sep :: gimLoop (n / 10) 0 := by
                rw [gimLoop_eq, if_neg hm]
                rfl
              rw [hL3, List.chain'_cons']
              refine ⟨?_, ih (n / 10) (Nat.div_lt_self (by omega) (by omega)) 0 (by omega)⟩
              intro y hy hbad
              rcases hbad.2 with h | h <;> exact absurd h (by decide)
        · intro x hx y hy hbad
          obtain ⟨hyod, hx_hv⟩ := hbad
          by_cases h10 : n % 10 = 0
          · rw [if_pos h10] at hx
            simp at hx
          · rw [if_neg h10] at hx
            rw [Option.mem_def] at hx
            rw [Option.mem_def] at hy
            subst hyod
            obtain ⟨hi1, hmod10⟩ := gimLoop_head_yod (n / 10) (i + 1) (by omega) hy
            have hi0 : i = 0 := by omega
            subst hi0
            rcases hx_hv with hxe | hxe
            · subst hxe
              obtain ⟨_, hd4⟩ := digitsTab_last_he 0 (by omega) (n % 10 - 1) (by omega) hx
              exact hsp ⟨rfl, Or.inl (by omega)⟩
            · subst hxe
              obtain ⟨_, hd5⟩ := digitsTab_last_vav 0 (by omega) (n % 10 - 1) (by omega) hx
              exact hsp ⟨rfl, Or.inr (by omega)⟩

/-! The claims. -/

/-- C1 (counterexample to the claim as stated): at `n = 1000` the encoder
produces alef-separator, which decodes to 1, re-encodes identically, and so
the validator returns 1, not 1000. -/
theorem validator_soundness_counterexample :
    hspell_is_canonic_gimatria (int2gim 1000) = 1 ∧
      hspell_is_canonic_gimatria (int2gim 1000) ≠ 1000 := by
  decide

/-- C1 (amended): for every `n ≥ 1` that is not a multiple of 1000,
validating the encoder's output returns `n`:
`hspell_is_canonic_gimatria (int2gim n) = n`. -/
theorem validator_soundness_amended (n : Nat) (h1 : 1 ≤ n) (h2 : n % 1000 ≠ 0) :
    hspell_is_canonic_gimatria (int2gim n) = n := by
  obtain ⟨hrt, hany⟩ := roundtrip_core n h1 h2
  unfold hspell_is_canonic_gimatria
  rw [hany, if_pos rfl, hrt, if_pos rfl]

theorem validator_soundness_amended_witness :
    1 ≤ 2024 ∧ 2024 % 1000 ≠ 0 ∧ hspell_is_canonic_gimatria (int2gim 2024) = 2024 :=
  ⟨by decide, by decide, validator_soundness_amended 2024 (by decide) (by decide)⟩

/-- C2 (counterexample to the claim as stated): `gim2int (int2gim 1000) = 1`,
because the encoding of 1000 is alef followed by a trailing separator, and a
trailing separator has no multiplying effect in the decoder. -/
theorem roundtrip_fixed_point_counterexample :
    gim2int (int2gim 1000) = 1 ∧ gim2int (int2gim 1000) ≠ 1000 := by
  decide

/-- C2 (amended): for every `n ≥ 1` that is not a multiple of 1000,
`gim2int (int2gim n) = n`. -/
theorem roundtrip_fixed_point_amended (n : Nat) (h1 : 1 ≤ n) (h2 : n % 1000 ≠ 0) :
    gim2int (int2gim n) = n :=
  (roundtrip_core n h1 h2).1

theorem roundtrip_fixed_point_amended_witness :
    1 ≤ 5755 ∧ 5755 % 1000 ≠ 0 ∧ gim2int (int2gim 5755) = 5755 :=
  ⟨by decide, by decide, roundtrip_fixed_point_amended 5755 (by decide) (by decide)⟩

/-- C3 (counterexample to the claim as stated): with `S` = alef (value 1,
no separator) and the non-empty `T` = alef-separator-alef, decoding
`S ++ separator ++ T` gives 1001001, while `1 * 1000 + gim2int T = 2001`:
an interior separator of `T` re-multiplies the accumulated prefix value. -/
theorem separator_semantics_counterexample :
    GChar.sep ∉ ([GChar.alef] : List GChar) ∧
      ([GChar.alef, GChar.sep, GChar.alef] : List GChar) ≠ [] ∧
      gim2int ([GChar.alef] ++ GChar.sep :: [GChar.alef, GChar.sep, GChar.alef]) ≠
        gim2int [GChar.alef] * 1000 + gim2int [GChar.alef, GChar.sep, GChar.alef] := by
  decide

/-- C3 (amended): a separator multiplies the accumulator by 1000 exactly when
at least one character follows it; consequently, for a separator-free `S`
decoding to `v` and a non-empty `T` with no separator before its last
character, `gim2int (S ++ sep :: T) = v * 1000 + gim2int T`. -/
theorem separator_semantics_amended (S T : List GChar) (v : Nat)
    (hS : GChar.sep ∉ S) (hv : gim2int S = v) (hT : T ≠ [])
    (hT2 : GChar.sep ∉ T.dropLast) :
    gim2int (S ++ GChar.sep :: T) = v * 1000 + gim2int T := by
  have hvS : v = sumVal S := by
    rw [← hv]
    show gim2intAux 0 S = sumVal S
    rw [gim2intAux_inner_no_sep S 0 (fun hmem => hS (List.dropLast_subset _ hmem))]
    omega
  have hTv : gim2int T = sumVal T := by
    show gim2intAux 0 T = sumVal T
    rw [gim2intAux_inner_no_sep T 0 hT2]
    omega
  show gim2intAux 0 (S ++ GChar.sep :: T) = v * 1000 + gim2int T
  rw [gim2intAux_append_no_sep S 0 _ hS, gim2intAux_cons, if_pos rfl, if_neg hT,
    gim2intAux_inner_no_sep T _ hT2, hTv, hvS]
  omega

theorem separator_semantics_amended_witness :
    GChar.sep ∉ ([GChar.alef] : List GChar) ∧
      gim2int [GChar.alef] = 1 ∧
      ([GChar.bet] : List GChar) ≠ [] ∧
      GChar.sep ∉ ([GChar.bet] : List GChar).dropLast ∧
      gim2int ([GChar.alef] ++ GChar.sep :: [GChar.bet]) =
        1 * 1000 + gim2int [GChar.bet] :=
  ⟨by decide, by decide, by decide, by decide,
    separator_semantics_amended [GChar.alef] [GChar.bet] 1
      (by decide) (by decide) (by decide) (by decide)⟩

/-- C4 (counterexample to the claim as stated): at `n = 1000` the buffer
after final-letter substitution is alef-separator; the second-to-last
character is not a separator, so the claim prescribes inserting a quote mark
before the last character, but the code leaves the buffer unchanged because
the last character is itself a separator. -/
theorem punctuation_placement_counterexample :
    applyFinal ((gimLoop 1000 0).reverse) = [GChar.alef, GChar.sep] ∧
      int2gim 1000 = [GChar.alef, GChar.sep] ∧
      int2gim 1000 ≠ [GChar.alef, GChar.quote, GChar.sep] := by
  decide

/-- C4 (amended): for a multi-character buffer after final-letter
substitution, with last character `c` and second-to-last `d`: if `d` is a
separator and `c` is not, a trailing separator is appended; otherwise, if
`c` is not a separator, a quote mark is inserted immediately before `c`;
otherwise (`c` is itself a separator) the buffer is left unchanged. -/
theorem punctuation_placement_amended (n : Nat) (buf : List GChar) (c d : GChar)
    (r : List GChar) (hbuf : buf = applyFinal ((gimLoop n 0).reverse))
    (hrev : buf.reverse = c :: d :: r) :
    int2gim n =
      if d = GChar.sep ∧ c ≠ GChar.sep then buf ++ [GChar.sep]
      else if c ≠ GChar.sep then buf.dropLast ++ [GChar.quote, c]
      else buf := by
  have hpb : int2gim n = punct buf := by
    unfold int2gim
    rw [hbuf]
  rw [hpb, punct_rev_cons buf c d r hrev]

theorem punctuation_placement_amended_witness :
    ([GChar.he, GChar.sep, GChar.alef] : List GChar) =
        applyFinal ((gimLoop 5001 0).reverse) ∧
      ([GChar.he, GChar.sep, GChar.alef] : List GChar).reverse =
        GChar.alef :: GChar.sep :: [GChar.he] ∧
      int2gim 5001 =
        (if GChar.sep = GChar.sep ∧ GChar.alef ≠ GChar.sep then
          [GChar.he, GChar.sep, GChar.alef] ++ [GChar.sep]
        else if GChar.alef ≠ GChar.sep then
          ([GChar.he, GChar.sep, GChar.alef] : List GChar).dropLast ++
            [GChar.quote, GChar.alef]
        else [GChar.he, GChar.sep, GChar.alef]) :=
  ⟨by decide, by decide,
    punctuation_placement_amended 5001 [GChar.he, GChar.sep, GChar.alef]
      GChar.alef GChar.sep [GChar.he] (by decide) (by decide)⟩

/-- C5: a string containing neither a quote mark nor a separator is rejected
by the validator, which returns 0. -/
theorem fast_path_rejection (w : List GChar)
    (h : ∀ c ∈ w, c ≠ GChar.quote ∧ c ≠ GChar.sep) :
    hspell_is_canonic_gimatria w = 0 := by
  have hany : w.any (fun c => decide (c = GChar.quote ∨ c = GChar.sep)) = false := by
    rw [List.any_eq_false]
    intro c hc
    simp only [decide_eq_true_iff]
    obtain ⟨hq, hs⟩ := h c hc
    rintro (hh | hh)
    · exact hq hh
    · exact hs hh
  unfold hspell_is_canonic_gimatria
  rw [hany]
  rfl

theorem fast_path_rejection_witness :
    (∀ c ∈ ([GChar.other 104, GChar.other 101, GChar.other 108, GChar.other 108,
        GChar.other 111] : List GChar), c ≠ GChar.quote ∧ c ≠ GChar.sep) ∧
      hspell_is_canonic_gimatria
        [GChar.other 104, GChar.other 101, GChar.other 108, GChar.other 108,
          GChar.other 111] = 0 ∧
      hspell_is_canonic_gimatria [] = 0 :=
  ⟨by decide, fast_path_rejection _ (by decide), fast_path_rejection [] (by decide)⟩

/-- C6: the letters of the encodings of 15 and 16 (in reading order, with
the punctuation marks filtered out) are the tet-vav and tet-zayin idioms,
not the yod-he and yod-vav compositions. -/
theorem idiom_15_16 :
    (int2gim 15).filter isHebLetter = [GChar.tet, GChar.vav] ∧
      (int2gim 16).filter isHebLetter = [GChar.tet, GChar.zayin] ∧
      (int2gim 15).filter isHebLetter ≠ [GChar.yod, GChar.he] ∧
      (int2gim 16).filter isHebLetter ≠ [GChar.yod, GChar.vav] := by
  decide

/-- C7 (counterexample to the claim as stated): the encoder's parameter is
`unsigned int`, so a C caller passing -5 reaches the function with
2^32 - 5 = 4294967291, whose encoding is not the empty string. -/
theorem zero_negative_encode_counterexample : ¬(int2gim (2 ^ 32 - 5) = []) := by
  decide

/-- C7 (amended): `int2gim 0` is the empty string, but a negative C argument
such as -5 is converted to `2^32 - 5` by the `unsigned int` parameter and
encodes to a non-empty string (the empty-string convention holds only for
zero). -/
theorem zero_negative_encode_amended :
    int2gim 0 = [] ∧ int2gim (2 ^ 32 - 5) ≠ [] := by
  decide

/-- C8: whenever the last character of the reversed buffer (before
substitution) is one of the five letters with final forms, the letter in the
final-letter position of the encoder's output (its last letter, ignoring
punctuation) is the corresponding final form, never the regular form. -/
theorem final_letter_substitution (n : Nat) (c : GChar)
    (hlast : ((gimLoop n 0).reverse).getLast? = some c)
    (hfive : c ∈ ([GChar.kaf, GChar.mem, GChar.nun, GChar.pe, GChar.tsadi] : List GChar)) :
    ((int2gim n).filter isHebLetter).getLast? = some (subFinal c) ∧
      subFinal c ∈ ([GChar.finalKaf, GChar.finalMem, GChar.finalNun, GChar.finalPe,
        GChar.finalTsadi] : List GChar) := by
  rw [List.getLast?_reverse] at hlast
  have hfacts : isHebLetter (subFinal c) = true ∧ subFinal c ≠ GChar.sep ∧
      subFinal c ∈ ([GChar.finalKaf, GChar.finalMem, GChar.finalNun, GChar.finalPe,
        GChar.finalTsadi] : List GChar) := by
    fin_cases hfive <;> exact ⟨by decide, by decide, by decide⟩
  obtain ⟨hbl, hbs, hbf⟩ := hfacts
  refine ⟨?_, hbf⟩
  have hf1 : List.filter isHebLetter [subFinal c] = [subFinal c] := by
    simp [List.filter_cons, hbl]
  cases hL : gimLoop n 0 with
  | nil =>
    rw [hL] at hlast
    simp at hlast
  | cons c0 L' =>
    rw [hL] at hlast
    have hc0 : c0 = c := by
      simp only [List.head?_cons, Option.some.injEq] at hlast
      exact hlast
    subst hc0
    have hAF : applyFinal ((gimLoop n 0).reverse) = L'.reverse ++ [subFinal c0] := by
      unfold applyFinal
      rw [hL, List.reverse_cons, List.getLast?_concat, List.dropLast_concat]
    have hIG : int2gim n = punct (L'.reverse ++ [subFinal c0]) := by
      unfold int2gim
      rw [hAF]
    have hrev2 : (L'.reverse ++ [subFinal c0]).reverse = subFinal c0 :: L' := by
      rw [List.reverse_append, List.reverse_reverse]
      rfl
    cases L' with
    | nil =>
      rw [hIG, punct_rev_one _ _ (by rw [hrev2]), List.filter_append, List.filter_append,
        hf1, show List.filter isHebLetter [GChar.sep] = [] from rfl,
        List.append_nil, List.getLast?_concat]
    | cons d L'' =>
      have hpc := punct_rev_cons _ (subFinal c0) d L'' (by rw [hrev2])
      rw [hIG, hpc]
      by_cases hcc : d = GChar.sep ∧ subFinal c0 ≠ GChar.sep
      · rw [if_pos hcc, List.filter_append, List.filter_append, hf1,
          show List.filter isHebLetter [GChar.sep] = [] from rfl,
          List.append_nil, List.getLast?_concat]
      · rw [if_neg hcc, if_pos hbs, List.dropLast_concat, List.filter_append,
          show List.filter isHebLetter [GChar.quote, subFinal c0] = [subFinal c0] from by
            simp [List.filter_cons, hbl, show isHebLetter GChar.quote = false from rfl],
          List.getLast?_concat]

theorem final_letter_substitution_witness :
    ((gimLoop 20 0).reverse).getLast? = some GChar.kaf ∧
      GChar.kaf ∈ ([GChar.kaf, GChar.mem, GChar.nun, GChar.pe, GChar.tsadi] : List GChar) ∧
      ((int2gim 20).filter isHebLetter).getLast? = some (subFinal GChar.kaf) ∧
      subFinal GChar.kaf ∈ ([GChar.finalKaf, GChar.finalMem, GChar.finalNun,
        GChar.finalPe, GChar.finalTsadi] : List GChar) :=
  ⟨by decide, by decide,
    (final_letter_substitution 20 GChar.kaf (by decide) (by decide)).1,
    (final_letter_substitution 20 GChar.kaf (by decide) (by decide)).2⟩

/-- C9: each value whose canonical numeral is a single letter encodes to
that letter (final form where one exists) followed by the separator. -/
theorem single_letter_punctuation :
    int2gim 1 = [GChar.alef, GChar.sep] ∧ int2gim 2 = [GChar.bet, GChar.sep] ∧
      int2gim 3 = [GChar.gimel, GChar.sep] ∧ int2gim 4 = [GChar.dalet, GChar.sep] ∧
      int2gim 5 = [GChar.he, GChar.sep] ∧ int2gim 6 = [GChar.vav, GChar.sep] ∧
      int2gim 7 = [GChar.zayin, GChar.sep] ∧ int2gim 8 = [GChar.het, GChar.sep] ∧
      int2gim 9 = [GChar.tet, GChar.sep] ∧ int2gim 10 = [GChar.yod, GChar.sep] ∧
      int2gim 20 = [GChar.finalKaf, GChar.sep] ∧ int2gim 30 = [GChar.lamed, GChar.sep] ∧
      int2gim 40 = [GChar.finalMem, GChar.sep] ∧ int2gim 50 = [GChar.finalNun, GChar.sep] ∧
      int2gim 60 = [GChar.samekh, GChar.sep] ∧ int2gim 70 = [GChar.ayin, GChar.sep] ∧
      int2gim 80 = [GChar.finalPe, GChar.sep] ∧ int2gim 90 = [GChar.finalTsadi, GChar.sep] ∧
      int2gim 100 = [GChar.qof, GChar.sep] ∧ int2gim 200 = [GChar.resh, GChar.sep] ∧
      int2gim 300 = [GChar.shin, GChar.sep] ∧ int2gim 400 = [GChar.tav, GChar.sep] := by
  decide

/-- C10: for every `n`, the encoder's output never contains yod immediately
followed by he, nor yod immediately followed by vav, anywhere in the
string. -/
theorem no_sacred_pairs (n : Nat) : noBadPairs (int2gim n) = true := by
  rw [noBadPairs_iff_chain]
  cases hL : gimLoop n 0 with
  | nil =>
    have hnil : int2gim n = [] := by
      unfold int2gim
      rw [hL]
      rfl
    rw [hnil]
    exact List.chain'_nil
  | cons c L' =>
    have hchainQ : List.Chain' (fun x y => ¬ badPair y x) (c :: L') := by
      rw [← hL]
      exact chainQ_gimLoop n 0 (by omega)
    have hchainP : List.Chain' (fun a b => ¬ badPair a b) ((c :: L').reverse) :=
      List.chain'_reverse.mpr hchainQ
    have hrevP : List.Chain' (fun a b => ¬ badPair a b) (L'.reverse ++ [c]) := by
      rw [← List.reverse_cons]
      exact hchainP
    have hchainAF : List.Chain' (fun a b => ¬ badPair a b)
        (L'.reverse ++ [subFinal c]) := by
      rw [List.chain'_append] at hrevP ⊢
      obtain ⟨h1, _, h3⟩ := hrevP
      refine ⟨h1, List.chain'_singleton _, ?_⟩
      intro x hx y hy hbad
      simp only [List.head?_cons, Option.mem_def, Option.some.injEq] at hy
      subst hy
      obtain ⟨hxy, hhv⟩ := hbad
      exact h3 x hx c (by simp) ⟨hxy, subFinal_he_or_vav c hhv⟩
    have hAF : applyFinal ((gimLoop n 0).reverse) = L'.reverse ++ [subFinal c] := by
      unfold applyFinal
      rw [hL, List.reverse_cons, List.getLast?_concat, List.dropLast_concat]
    have hIG : int2gim n = punct (L'.reverse ++ [subFinal c]) := by
      unfold int2gim
      rw [hAF]
    have hrev2 : (L'.reverse ++ [subFinal c]).reverse = subFinal c :: L' := by
      rw [List.reverse_append, List.reverse_reverse]
      rfl
    cases L' with
    | nil =>
      rw [hIG, punct_rev_one _ _ (by rw [hrev2]), List.chain'_append]
      refine ⟨hchainAF, List.chain'_singleton _, ?_⟩
      intro x hx y hy hbad
      simp only [List.head?_cons, Option.mem_def, Option.some.injEq] at hy
      subst hy
      rcases hbad.2 with h | h <;> exact absurd h (by decide)
    | cons d L'' =>
      have hpc := punct_rev_cons _ (subFinal c) d L'' (by rw [hrev2])
      rw [hIG, hpc]
      by_cases hcc : d = GChar.sep ∧ subFinal c ≠ GChar.sep
      · rw [if_pos hcc, List.chain'_append]
        refine ⟨hchainAF, List.chain'_singleton _, ?_⟩
        intro x hx y hy hbad
        simp only [List.head?_cons, Option.mem_def, Option.some.injEq] at hy
        subst hy
        rcases hbad.2 with h | h <;> exact absurd h (by decide)
      · rw [if_neg hcc]
        by_cases hcs : subFinal c ≠ GChar.sep
        · rw [if_pos hcs, List.dropLast_concat]
          rw [List.chain'_append] at hchainAF ⊢
          obtain ⟨h1, _, _⟩ := hchainAF
          refine ⟨h1, ?_, ?_⟩
          · rw [List.chain'_cons]
            refine ⟨?_, List.chain'_singleton _⟩
            intro hbad
            exact absurd hbad.1 (by decide)
          · intro x hx y hy hbad
            simp only [List.head?_cons, Option.mem_def, Option.some.injEq] at hy
            subst hy
            rcases hbad.2 with h | h <;> exact absurd h (by decide)
        · rw [if_neg hcs]
          exact hchainAF

theorem no_sacred_pairs_witness : noBadPairs (int2gim 115) = true :=
  no_sacred_pairs 115

end Gimatria
